import Mathlib

/-!
Shallow embedding of the resume extraction pipeline of this repository
(`workflow.py` and `text_processor.py`).

Strings are modelled as lists of characters.  Python string methods
(`strip`, `split`, substring membership, `startswith`) are translated
explicitly.  List indexing that can raise `IndexError` in Python is
modelled by pattern matches whose fallback arm returns `none`, so the
exception behaviour of every parsing routine is visible in its type:
a routine returns `none` exactly when the corresponding Python code
would raise (and hence be caught by the enclosing `try`/`except`).
-/

/-- Strings as lists of characters. -/
abbrev Str := List Char

/-- Shorthand for turning a Lean string literal into `Str`. -/
def lit (s : String) : Str := s.toList

/-- The whitespace class used by Python `str.strip()` with no argument
and by the regex class `\s` in `workflow.py` (ASCII fragment). -/
def isSpace (c : Char) : Bool :=
  c = ' ' || c = '\t' || c = '\n' || c = '\r' || c = '\x0b' || c = '\x0c'

/-- Python `s.lstrip(chars)`: drop leading characters that belong to `cs`. -/
def lstripC (cs : List Char) (s : Str) : Str := s.dropWhile (fun c => c ∈ cs)

/-- Python `s.rstrip(chars)`: drop trailing characters that belong to `cs`. -/
def rstripC (cs : List Char) (s : Str) : Str :=
  (s.reverse.dropWhile (fun c => c ∈ cs)).reverse

/-- Python `s.strip(chars)`: drop characters of `cs` from both ends. -/
def pyStripChars (cs : List Char) (s : Str) : Str := rstripC cs (lstripC cs s)

/-- Python `s.strip()`: drop whitespace from both ends. -/
def pyStrip (s : Str) : Str :=
  (s.dropWhile isSpace).reverse.dropWhile isSpace |>.reverse

/-- The character set of Python `strip('- *')` used throughout
`text_processor.py` to remove markdown formatting. -/
def mdChars : List Char := ['-', ' ', '*']

/-- The character set of Python `strip(' -')` applied to skill tokens. -/
def tokChars : List Char := [' ', '-']

/-- The character set of Python `strip('# ')` applied to experience
company headings. -/
def hashChars : List Char := ['#', ' ']

/-- The character set of Python `strip('*')`. -/
def starChars : List Char := ['*']

/-- Python `s.split(c)` for a single separator character: splits at every
occurrence, keeping empty parts, and always returns at least one part. -/
def splitOnChar (c : Char) : Str → List Str
  | [] => [[]]
  | a :: rest =>
    if a = c then [] :: splitOnChar c rest
    else
      match splitOnChar c rest with
      | [] => [[a]]
      | h :: t => (a :: h) :: t

/-- Worker for Python `s.split(sep)` with a multi-character separator.
`fuel` bounds the recursion so that the definition is structural (the
scan consumes at least one character per step, so `fuel = s.length`
is always enough; the `0` fallback is unreachable then). -/
def pySplitF (sep : Str) : Nat → Str → List Str
  | _, [] => [[]]
  | 0, s => [s]
  | fuel + 1, a :: rest =>
    if sep <+: (a :: rest) ∧ sep ≠ [] then
      [] :: pySplitF sep fuel (List.drop sep.length (a :: rest))
    else
      match pySplitF sep fuel rest with
      | [] => [[a]]
      | h :: t => (a :: h) :: t

/-- Python `s.split(sep)`: splits at every non-overlapping occurrence of
`sep`, scanning left to right, keeping empty parts. -/
def pySplit (sep s : Str) : List Str := pySplitF sep s.length s

/-! ### `workflow.py`: the OCR page loop and `_clean_text` -/

/-- The page loop of `ResumeProcessor.process_single_resume`: each page
contributes its recognized text followed by a newline.  A page whose OCR
call raises (modelled by `none`) aborts the loop; the exception is
caught by the surrounding handler, so the whole document produces no
text at all. -/
def extractPages : List (Option Str) → Option Str
  | [] => some []
  | none :: _ => none
  | some t :: rest =>
    match extractPages rest with
    | none => none
    | some r => some (t ++ '\n' :: r)

/-- Whether the first character of `s` is whitespace. -/
def headSpace : Str → Bool
  | r :: _ => isSpace r
  | [] => false

/-- `re.sub(r'(?m)^[b]\s+', '• ', text)`: at every line start, the
character `b` followed by a greedy whitespace run is rewritten to a
bullet glyph and a single space.  The Boolean argument tracks whether
the scan position is at a line start: a position is a line start when
the character before it in the original text is a newline, so after a
replacement the scan re-anchors exactly when the consumed whitespace
run ended in a newline (e.g. `e\ne x` rewrites to `• • x`). -/
def subBullet (b : Char) : Bool → Str → Str
  | _, [] => []
  | atStart, c :: rest =>
    if atStart = true ∧ c = b ∧ headSpace rest = true then
      '•' :: ' ' ::
        subBullet b (decide ((rest.takeWhile isSpace).getLast? = some '\n'))
          (rest.dropWhile isSpace)
    else
      c :: subBullet b (decide (c = '\n')) rest
termination_by _ s => s.length
decreasing_by
  · simp only [List.length_cons]
    exact Nat.lt_succ_of_le (List.dropWhile_suffix _).length_le
  · simp

/-- Replacement text for a run of `n` newlines under
`re.sub(r'\n{3,}', '\n\n', text)`. -/
def nlEmit (n : Nat) : Str :=
  if 3 ≤ n then ['\n', '\n'] else List.replicate n '\n'

/-- `re.sub(r'\n{3,}', '\n\n', text)`: runs of three or more newlines
collapse to exactly two. -/
def subNl : Str → Str
  | [] => []
  | c :: rest =>
    if c = '\n' then
      nlEmit (1 + (rest.takeWhile (fun d => d = '\n')).length) ++
        subNl (rest.dropWhile (fun d => d = '\n'))
    else c :: subNl rest
termination_by s => s.length
decreasing_by
  · simp only [List.length_cons]
    exact Nat.lt_succ_of_le (List.dropWhile_suffix _).length_le
  · simp

/-- `re.sub(r'\s+', ' ', text)`: every whitespace run collapses to a
single space. -/
def subWs : Str → Str
  | [] => []
  | c :: rest =>
    if isSpace c then ' ' :: subWs (rest.dropWhile isSpace)
    else c :: subWs rest
termination_by s => s.length
decreasing_by
  · simp only [List.length_cons]
    exact Nat.lt_succ_of_le (List.dropWhile_suffix _).length_le
  · simp

/-- `ResumeProcessor._clean_text`: the three bullet substitutions in
source order, newline-run collapse, whitespace collapse, final strip. -/
def clean_text (s : Str) : Str :=
  pyStrip (subWs (subNl (subBullet '-' true (subBullet 'o' true (subBullet 'e' true s)))))

/-- The text-producing part of `process_single_resume`: run the OCR page
loop, then clean the concatenated text.  `none` means an exception
reached the handler and no output file is written. -/
def process_single_resume (pages : List (Option Str)) : Option Str :=
  (extractPages pages).map clean_text

/-- Whether a string begins with one of the two-character patterns
(`e`, `o` or `-` followed by whitespace) that the bullet substitutions
of `_clean_text` rewrite at the start of the text. -/
def bulletStart : Str → Bool
  | a :: b :: _ => (a = 'e' || a = 'o' || a = '-') && isSpace b
  | _ => false


/-! ### `text_processor.py`: data shapes

Each Python dict literal with fixed keys is mirrored by a structure,
except the education item and the personal-info dict, which are
mirrored by association lists so that the *set of keys* the code
actually creates is part of the model. -/

/-- A certification record `{name, date}`. -/
structure Cert where
  name : Str
  date : Str
deriving DecidableEq

/-- A field value of an education item: either a string field or the
list of certification records. -/
inductive FVal
  | str : Str → FVal
  | certs : List Cert → FVal
deriving DecidableEq

/-- An education item, as the Python dict it is: an ordered association
list from key names to field values. -/
abbrev EduItem := List (String × FVal)

/-- Python dict assignment `item[k] = v` for a key the dict already
holds: replace the value stored at `k`. -/
def setF (k : String) (v : FVal) (d : EduItem) : EduItem :=
  d.map fun p => if p.1 = k then (p.1, v) else p

/-- Python `item["certifications"].append(c)`. -/
def addCert (c : Cert) (d : EduItem) : EduItem :=
  d.map fun p =>
    if p.1 = "certifications" then
      match p.2 with
      | FVal.certs cs => (p.1, FVal.certs (cs ++ [c]))
      | v => (p.1, v)
    else p

/-- The dict literal creating a new education item in
`TextProcessor._parse_education` (note: no `gpa`, no `coursework`). -/
def newEduItem (inst : Str) : EduItem :=
  [("institution", FVal.str inst), ("location", FVal.str []),
   ("degree", FVal.str []), ("dates", FVal.str []),
   ("certifications", FVal.certs [])]

/-- The keys of the education-item dict, in creation order. -/
def eduKeys : List String :=
  ["institution", "location", "degree", "dates", "certifications"]

/-- The hard-coded certification record appended by `_parse_education`
whenever a line mentions `CCNA`. -/
def ccnaCert : Cert := ⟨lit "CCNA 200-301", lit "October 2024"⟩

/-- The skills dict: four fixed categories. -/
structure Skills where
  technical : List Str
  soft : List Str
  languages : List Str
  tools : List Str
deriving DecidableEq

def emptySkills : Skills := ⟨[], [], [], []⟩

/-- The active skills category, when one has been seen. -/
inductive SkillCat
  | technical | soft | languages | tools
deriving DecidableEq

/-- Python `skills[current_category].extend(ts)`. -/
def addSkills (sk : Skills) (cat : SkillCat) (ts : List Str) : Skills :=
  match cat with
  | .technical => { sk with technical := sk.technical ++ ts }
  | .soft => { sk with soft := sk.soft ++ ts }
  | .languages => { sk with languages := sk.languages ++ ts }
  | .tools => { sk with tools := sk.tools ++ ts }

/-- A project record `{name, description, technologies, url}`. -/
structure Project where
  name : Str
  description : Str
  technologies : List Str
  url : Str
deriving DecidableEq

/-- An experience record `{company, title, dates, location, achievements}`. -/
structure ExpItem where
  company : Str
  title : Str
  dates : Str
  location : Str
  achievements : List Str
deriving DecidableEq

/-- The personal-info dict: an association list, because
`_parse_llm_response` initialises it to the *empty* dict and
`_parse_personal_info` replaces it by a five-key dict. -/
abbrev PDict := List (String × Str)

/-- Python dict assignment on a string-valued dict. -/
def setS (k : String) (v : Str) (d : PDict) : PDict :=
  d.map fun p => if p.1 = k then (p.1, v) else p

/-- The dict literal opening `_parse_personal_info`. -/
def pInit : PDict :=
  [("name", []), ("email", []), ("phone", []), ("location", []), ("linkedin", [])]

/-- The full parsed record built by `_parse_llm_response`. -/
structure ParsedData where
  personal_info : PDict
  education : List EduItem
  experience : List ExpItem
  skills : Skills
  projects : List Project
deriving DecidableEq

/-- The initial `parsed_data` dict literal of `_parse_llm_response`. -/
def emptyParsed : ParsedData := ⟨[], [], [], emptySkills, []⟩

/-! ### `TextProcessor._parse_personal_info` -/

/-- The per-line loop of `_parse_personal_info`.  Each labelled line
stores `line.split(label)[1].strip().strip('*')`; the `[1]` index is
guarded by the substring test, and the fallback arm models the
`IndexError` that would escape if the guard could hold with fewer than
two split parts. -/
def parsePersLines : List Str → PDict → Option PDict
  | [], d => some d
  | l :: rest, d =>
    let line := pyStripChars mdChars l
    if lit "Full name:" <:+: line then
      match pySplit (lit "Full name:") line with
      | _ :: v :: _ => parsePersLines rest (setS "name" (pyStripChars starChars (pyStrip v)) d)
      | _ => none
    else if lit "Email:" <:+: line then
      match pySplit (lit "Email:") line with
      | _ :: v :: _ => parsePersLines rest (setS "email" (pyStripChars starChars (pyStrip v)) d)
      | _ => none
    else if lit "Phone number:" <:+: line then
      match pySplit (lit "Phone number:") line with
      | _ :: v :: _ => parsePersLines rest (setS "phone" (pyStripChars starChars (pyStrip v)) d)
      | _ => none
    else if lit "Location:" <:+: line then
      match pySplit (lit "Location:") line with
      | _ :: v :: _ => parsePersLines rest (setS "location" (pyStripChars starChars (pyStrip v)) d)
      | _ => none
    else if lit "LinkedIn profile:" <:+: line then
      match pySplit (lit "LinkedIn profile:") line with
      | _ :: v :: _ => parsePersLines rest (setS "linkedin" (pyStripChars starChars (pyStrip v)) d)
      | _ => none
    else parsePersLines rest d

/-- `TextProcessor._parse_personal_info`. -/
def parse_personal_info (sec : Str) : Option PDict :=
  parsePersLines (splitOnChar '\n' sec) pInit

/-! ### `TextProcessor._parse_education` -/

/-- The per-line loop of `_parse_education`, carrying the accumulated
items and the open item. -/
def parseEduLines : List Str → List EduItem → Option EduItem → Option (List EduItem)
  | [], items, cur =>
    some (items ++ (match cur with | some it => [it] | none => []))
  | l :: rest, items, cur =>
    let line := pyStrip l
    if line = [] ∨ lit "EDUCATION" <:+: line then
      parseEduLines rest items cur
    else if lit "- **" <+: line ∧ ¬ lit "Title:" <:+: line ∧ ¬ lit "Dates:" <:+: line then
      let items1 := match cur with | some it => items ++ [it] | none => items
      let institution := pyStripChars mdChars line
      if ',' ∈ institution then
        match splitOnChar ',' institution with
        | p0 :: p1 :: _ =>
          parseEduLines rest items1
            (some (setF "location" (FVal.str (pyStrip p1))
              (setF "institution" (FVal.str (pyStrip p0)) (newEduItem institution))))
        | _ => none
      else
        parseEduLines rest items1 (some (newEduItem institution))
    else
      match cur with
      | none => parseEduLines rest items cur
      | some it =>
        let line2 := pyStripChars mdChars line
        if lit "Bachelor" <:+: line2 ∨ lit "Master" <:+: line2 ∨ lit "Degree" <:+: line2 then
          parseEduLines rest items (some (setF "degree" (FVal.str (pyStrip line2)) it))
        else if lit "Dates:" <:+: line2 then
          match pySplit (lit "Dates:") line2 with
          | _ :: v :: _ =>
            parseEduLines rest items (some (setF "dates" (FVal.str (pyStrip v)) it))
          | _ => none
        else if lit "CCNA" <:+: line2 then
          parseEduLines rest items
            (some (addCert ⟨lit "CCNA 200-301", lit "October 2024"⟩ it))
        else parseEduLines rest items cur

/-- `TextProcessor._parse_education`. -/
def parse_education (sec : Str) : Option (List EduItem) :=
  parseEduLines (splitOnChar '\n' sec) [] none

/-! ### `TextProcessor._parse_skills` -/

/-- The list comprehension
`[skill.strip(' -') for skill in line.split(',') if skill.strip()]`. -/
def skillTokens (line : Str) : List Str :=
  ((splitOnChar ',' line).filter (fun t => pyStrip t ≠ [])).map (pyStripChars tokChars)

/-- The per-line loop of `_parse_skills`: category labels set the active
category (a label line contributes no tokens itself); an unlabelled,
colon-free, non-empty line is comma-split and appended to the active
category. -/
def parseSkillsLines : List Str → Option SkillCat → Skills → Skills
  | [], _, sk => sk
  | l :: rest, cat, sk =>
    let line := pyStripChars mdChars l
    if lit "Technical skills:" <:+: line then
      parseSkillsLines rest (some .technical) sk
    else if lit "Soft skills:" <:+: line then
      parseSkillsLines rest (some .soft) sk
    else if lit "Languages:" <:+: line then
      if lit "Not specified" <:+: line then
        parseSkillsLines rest (some .languages) { sk with languages := [] }
      else
        parseSkillsLines rest (some .languages) sk
    else if lit "Tools:" <:+: line then
      parseSkillsLines rest (some .tools) sk
    else
      match cat with
      | some c =>
        if line ≠ [] ∧ ':' ∉ line then
          let ts := skillTokens line
          if ts = [] then parseSkillsLines rest cat sk
          else parseSkillsLines rest cat (addSkills sk c ts)
        else parseSkillsLines rest cat sk
      | none => parseSkillsLines rest cat sk

/-- `TextProcessor._parse_skills`. -/
def parse_skills (sec : Str) : Skills :=
  parseSkillsLines (splitOnChar '\n' sec) none emptySkills

/-! ### `TextProcessor._parse_projects` -/

/-- The phrase that empties a projects section. -/
def noProjPhrase : Str := lit "no explicitly listed projects"

/-- The per-line loop of `_parse_projects` (reached only when no line
contains the empty-projects phrase). -/
def parseProjLines : List Str → List Project → Option Project → Option (List Project)
  | [], ps, cur =>
    some (ps ++ (match cur with | some p => [p] | none => []))
  | l :: rest, ps, cur =>
    let line := pyStripChars mdChars l
    if lit "Project:" <+: line ∨ lit "Name:" <+: line then
      let ps1 := match cur with | some p => ps ++ [p] | none => ps
      match splitOnChar ':' line with
      | _ :: v :: _ => parseProjLines rest ps1 (some ⟨pyStrip v, [], [], []⟩)
      | _ => none
    else
      match cur with
      | none => parseProjLines rest ps cur
      | some p =>
        if lit "Description:" <+: line then
          match splitOnChar ':' line with
          | _ :: v :: _ => parseProjLines rest ps (some { p with description := pyStrip v })
          | _ => none
        else if lit "Technologies:" <+: line then
          match splitOnChar ':' line with
          | _ :: v :: _ =>
            parseProjLines rest ps
              (some { p with technologies := (splitOnChar ',' (pyStrip v)).map pyStrip })
          | _ => none
        else if lit "URL:" <+: line then
          match splitOnChar ':' line with
          | _ :: v :: _ => parseProjLines rest ps (some { p with url := pyStrip v })
          | _ => none
        else parseProjLines rest ps cur

/-- `_parse_projects` applied to an already split buffer: if any line,
lowercased, contains the empty-projects phrase, the section yields the
empty list at once. -/
def parseProjBuffer (lines : List Str) : Option (List Project) :=
  if ∃ l ∈ lines, noProjPhrase <:+: l.map Char.toLower then some []
  else parseProjLines lines [] none

/-- `TextProcessor._parse_projects`. -/
def parse_projects (sec : Str) : Option (List Project) :=
  parseProjBuffer (splitOnChar '\n' sec)

/-! ### `TextProcessor._parse_experience` -/

/-- The per-line loop of `_parse_experience`. -/
def parseExpLines : List Str → List ExpItem → Option ExpItem → Option (List ExpItem)
  | [], xs, cur =>
    some (xs ++ (match cur with | some x => [x] | none => []))
  | l :: rest, xs, cur =>
    let line := pyStrip l
    if line = [] ∨ lit "EXPERIENCE" <:+: line then
      parseExpLines rest xs cur
    else if lit "####" <+: line then
      let xs1 := match cur with | some x => xs ++ [x] | none => xs
      parseExpLines rest xs1 (some ⟨pyStripChars hashChars line, [], [], [], []⟩)
    else
      match cur with
      | none => parseExpLines rest xs cur
      | some x =>
        let line2 := pyStripChars mdChars line
        if lit "Title:" <+: line2 then
          match pySplit (lit "Title:") line2 with
          | _ :: v :: _ => parseExpLines rest xs (some { x with title := pyStrip v })
          | _ => none
        else if lit "Dates:" <+: line2 then
          match pySplit (lit "Dates:") line2 with
          | _ :: v :: _ => parseExpLines rest xs (some { x with dates := pyStrip v })
          | _ => none
        else if lit "Location:" <+: line2 then
          match pySplit (lit "Location:") line2 with
          | _ :: v :: _ => parseExpLines rest xs (some { x with location := pyStrip v })
          | _ => none
        else if line2 ≠ [] ∧ ¬ lit "Title:" <:+: line2 ∧ ¬ lit "Dates:" <:+: line2 ∧
                ¬ lit "Location:" <:+: line2 then
          if pyStrip line2 ≠ [] ∧ ¬ lit "**" <+: line2 then
            parseExpLines rest xs
              (some { x with achievements := x.achievements ++ [pyStrip line2] })
          else parseExpLines rest xs cur
        else parseExpLines rest xs cur

/-- `TextProcessor._parse_experience`. -/
def parse_experience (sec : Str) : Option (List ExpItem) :=
  parseExpLines (splitOnChar '\n' sec) [] none

/-! ### `TextProcessor._parse_llm_response` -/

/-- The section loop of `_parse_llm_response`: sections are the parts of
the reply split on `###`; each stripped, non-empty section is dispatched
on the first matching section keyword.  Personal info and skills are
replaced, education, experience and projects are extended. -/
def parseSections : List Str → ParsedData → Option ParsedData
  | [], d => some d
  | s :: rest, d =>
    let sec := pyStrip s
    if sec = [] then parseSections rest d
    else if lit "PERSONAL INFORMATION" <:+: sec then
      match parse_personal_info sec with
      | some pi => parseSections rest { d with personal_info := pi }
      | none => none
    else if lit "EDUCATION" <:+: sec then
      match parse_education sec with
      | some es => parseSections rest { d with education := d.education ++ es }
      | none => none
    else if lit "EXPERIENCE" <:+: sec then
      match parse_experience sec with
      | some es => parseSections rest { d with experience := d.experience ++ es }
      | none => none
    else if lit "SKILLS" <:+: sec then
      parseSections rest { d with skills := parse_skills sec }
    else if lit "PROJECTS" <:+: sec then
      match parse_projects sec with
      | some ps => parseSections rest { d with projects := d.projects ++ ps }
      | none => none
    else parseSections rest d

/-- `TextProcessor._parse_llm_response`: `none` models the `except`
branch (the method returns Python `None` when parsing raises). -/
def parse_llm_response (content : Str) : Option ParsedData :=
  parseSections (pySplit (lit "###") content) emptyParsed


/-! ### Lemmas about the splitting primitives -/

theorem splitOnChar_ne_nil (c : Char) (s : Str) : splitOnChar c s ≠ [] := by
  induction s with
  | nil => simp [splitOnChar]
  | cons a rest ih =>
    simp only [splitOnChar]
    split
    · simp
    · split
      · simp
      · simp

theorem two_le_splitOnChar_length {c : Char} {s : Str} (h : c ∈ s) :
    2 ≤ (splitOnChar c s).length := by
  induction s with
  | nil => cases h
  | cons a rest ih =>
    simp only [splitOnChar]
    by_cases hac : a = c
    · rw [if_pos hac]
      cases hsp : splitOnChar c rest with
      | nil => exact absurd hsp (splitOnChar_ne_nil c rest)
      | cons x xs => simp
    · rw [if_neg hac]
      have hmem : c ∈ rest := by
        rcases List.mem_cons.mp h with h1 | h1
        · exact absurd h1.symm hac
        · exact h1
      have h2 := ih hmem
      cases hsp : splitOnChar c rest with
      | nil => exact absurd hsp (splitOnChar_ne_nil c rest)
      | cons x xs =>
        rw [hsp] at h2
        simp only [List.length_cons] at h2 ⊢
        omega

theorem splitOnChar_two {c : Char} {s : Str} (h : c ∈ s) :
    ∃ a v t, splitOnChar c s = a :: v :: t := by
  have h2 := two_le_splitOnChar_length h
  cases hsp : splitOnChar c s with
  | nil => rw [hsp] at h2; simp at h2
  | cons x xs =>
    cases xs with
    | nil => rw [hsp] at h2; simp at h2
    | cons y ys => exact ⟨x, y, ys, rfl⟩

theorem not_mem_of_mem_splitOnChar {c : Char} {s p : Str}
    (hp : p ∈ splitOnChar c s) : c ∉ p := by
  induction s generalizing p with
  | nil =>
    simp only [splitOnChar, List.mem_singleton] at hp
    subst hp; simp
  | cons a rest ih =>
    simp only [splitOnChar] at hp
    by_cases hac : a = c
    · rw [if_pos hac] at hp
      rcases List.mem_cons.mp hp with h1 | h1
      · subst h1; simp
      · exact ih h1
    · rw [if_neg hac] at hp
      cases hsp : splitOnChar c rest with
      | nil => exact absurd hsp (splitOnChar_ne_nil c rest)
      | cons x xs =>
        rw [hsp] at hp
        rcases List.mem_cons.mp hp with h1 | h1
        · subst h1
          intro hmem
          rcases List.mem_cons.mp hmem with h2 | h2
          · exact hac h2.symm
          · exact ih (by rw [hsp]; exact List.mem_cons_self x xs) h2
        · exact ih (by rw [hsp]; exact List.mem_cons_of_mem x h1)

theorem splitOnChar_head (c : Char) (s : Str) :
    ∃ t, splitOnChar c s = (s.takeWhile (· != c)) :: t := by
  induction s with
  | nil => exact ⟨[], rfl⟩
  | cons a rest ih =>
    simp only [splitOnChar]
    by_cases hac : a = c
    · rw [if_pos hac]
      refine ⟨splitOnChar c rest, ?_⟩
      have : (a != c) = false := by simp [hac]
      simp [List.takeWhile_cons, this]
    · rw [if_neg hac]
      rcases ih with ⟨t, ht⟩
      rw [ht]
      have : (a != c) = true := by simp [hac]
      simp [List.takeWhile_cons, this]

theorem splitOnChar_head_second {c : Char} {s : Str} (h : c ∈ s) :
    ∃ t, splitOnChar c s =
      (s.takeWhile (· != c)) ::
      ((s.dropWhile (· != c)).tail.takeWhile (· != c)) :: t := by
  induction s with
  | nil => cases h
  | cons a rest ih =>
    simp only [splitOnChar]
    by_cases hac : a = c
    · rw [if_pos hac]
      rcases splitOnChar_head c rest with ⟨t, ht⟩
      rw [ht]
      have hfalse : (a != c) = false := by simp [hac]
      refine ⟨t, ?_⟩
      simp [List.takeWhile_cons, List.dropWhile_cons, hfalse]
    · rw [if_neg hac]
      have hmem : c ∈ rest := by
        rcases List.mem_cons.mp h with h1 | h1
        · exact absurd h1.symm hac
        · exact h1
      rcases ih hmem with ⟨t, ht⟩
      rw [ht]
      have htrue : (a != c) = true := by simp [hac]
      refine ⟨t, ?_⟩
      simp [List.takeWhile_cons, List.dropWhile_cons, htrue]

theorem pySplitF_ne_nil (sep : Str) : ∀ fuel s, pySplitF sep fuel s ≠ [] := by
  intro fuel
  induction fuel with
  | zero => intro s; cases s <;> simp [pySplitF]
  | succ n ih =>
    intro s
    cases s with
    | nil => simp [pySplitF]
    | cons a rest =>
      simp only [pySplitF]
      split
      · simp
      · cases hsp : pySplitF sep n rest with
        | nil => exact absurd hsp (ih rest)
        | cons x xs => simp [hsp]

theorem pySplitF_two_of_infix (sep : Str) (hne : sep ≠ []) :
    ∀ fuel s, s.length ≤ fuel → sep <:+: s →
      ∃ a v t, pySplitF sep fuel s = a :: v :: t := by
  intro fuel
  induction fuel with
  | zero =>
    intro s hlen hinf
    have hs : s = [] := List.length_eq_zero.mp (Nat.le_zero.mp hlen)
    subst hs
    exact absurd (List.eq_nil_of_infix_nil hinf) hne
  | succ n ih =>
    intro s hlen hinf
    cases s with
    | nil => exact absurd (List.eq_nil_of_infix_nil hinf) hne
    | cons a rest =>
      simp only [pySplitF]
      by_cases hc : sep <+: (a :: rest) ∧ sep ≠ []
      · rw [if_pos hc]
        cases hsp : pySplitF sep n (List.drop sep.length (a :: rest)) with
        | nil => exact absurd hsp (pySplitF_ne_nil sep n _)
        | cons x xs => exact ⟨[], x, xs, rfl⟩

      · rw [if_neg hc]
        have hnp : ¬ sep <+: (a :: rest) := fun hp => hc ⟨hp, hne⟩
        have hrest : sep <:+: rest := by
          rcases List.infix_cons_iff.mp hinf with h1 | h1
          · exact absurd h1 hnp
          · exact h1
        have hlen2 : rest.length ≤ n := by
          simp only [List.length_cons] at hlen; omega
        rcases ih rest hlen2 hrest with ⟨x, y, ys, hxy⟩
        rw [hxy]
        exact ⟨a :: x, y, ys, rfl⟩

theorem pySplit_two_of_infix {sep s : Str} (hne : sep ≠ []) (hinf : sep <:+: s) :
    ∃ a v t, pySplit sep s = a :: v :: t :=
  pySplitF_two_of_infix sep hne s.length s le_rfl hinf

/-! ### Totality of the parsing routines

Every `[1]` index in `text_processor.py` sits behind a guard that makes
the indexed list at least two elements long, so no parsing routine can
raise and the `except` branch of `_parse_llm_response` is unreachable. -/

theorem parsePersLines_isSome : ∀ ls d, (parsePersLines ls d).isSome := by
  intro ls
  induction ls with
  | nil => intro d; simp [parsePersLines]
  | cons l rest ih =>
    intro d
    simp only [parsePersLines]
    by_cases h1 : lit "Full name:" <:+: pyStripChars mdChars l
    · rw [if_pos h1]
      rcases pySplit_two_of_infix (by decide) h1 with ⟨a, v, t, hsp⟩
      rw [hsp]
      exact ih _
    · rw [if_neg h1]
      by_cases h2 : lit "Email:" <:+: pyStripChars mdChars l
      · rw [if_pos h2]
        rcases pySplit_two_of_infix (by decide) h2 with ⟨a, v, t, hsp⟩
        rw [hsp]
        exact ih _
      · rw [if_neg h2]
        by_cases h3 : lit "Phone number:" <:+: pyStripChars mdChars l
        · rw [if_pos h3]
          rcases pySplit_two_of_infix (by decide) h3 with ⟨a, v, t, hsp⟩
          rw [hsp]
          exact ih _
        · rw [if_neg h3]
          by_cases h4 : lit "Location:" <:+: pyStripChars mdChars l
          · rw [if_pos h4]
            rcases pySplit_two_of_infix (by decide) h4 with ⟨a, v, t, hsp⟩
            rw [hsp]
            exact ih _
          · rw [if_neg h4]
            by_cases h5 : lit "LinkedIn profile:" <:+: pyStripChars mdChars l
            · rw [if_pos h5]
              rcases pySplit_two_of_infix (by decide) h5 with ⟨a, v, t, hsp⟩
              rw [hsp]
              exact ih _
            · rw [if_neg h5]
              exact ih _

theorem parseEduLines_isSome : ∀ ls items cur, (parseEduLines ls items cur).isSome := by
  intro ls
  induction ls with
  | nil => intro items cur; cases cur <;> simp [parseEduLines]
  | cons l rest ih =>
    intro items cur
    cases cur with
    | none =>
      simp only [parseEduLines]
      by_cases h0 : pyStrip l = [] ∨ lit "EDUCATION" <:+: pyStrip l
      · rw [if_pos h0]; exact ih _ _
      · rw [if_neg h0]
        by_cases h1 : lit "- **" <+: pyStrip l ∧ ¬ lit "Title:" <:+: pyStrip l ∧
            ¬ lit "Dates:" <:+: pyStrip l
        · rw [if_pos h1]
          by_cases h2 : ',' ∈ pyStripChars mdChars (pyStrip l)
          · rw [if_pos h2]
            rcases splitOnChar_two h2 with ⟨a, v, t, hsp⟩
            rw [hsp]
            exact ih _ _
          · rw [if_neg h2]
            exact ih _ _
        · rw [if_neg h1]
          exact ih _ _
    | some it =>
      simp only [parseEduLines]
      by_cases h0 : pyStrip l = [] ∨ lit "EDUCATION" <:+: pyStrip l
      · rw [if_pos h0]; exact ih _ _
      · rw [if_neg h0]
        by_cases h1 : lit "- **" <+: pyStrip l ∧ ¬ lit "Title:" <:+: pyStrip l ∧
            ¬ lit "Dates:" <:+: pyStrip l
        · rw [if_pos h1]
          by_cases h2 : ',' ∈ pyStripChars mdChars (pyStrip l)
          · rw [if_pos h2]
            rcases splitOnChar_two h2 with ⟨a, v, t, hsp⟩
            rw [hsp]
            exact ih _ _
          · rw [if_neg h2]
            exact ih _ _
        · rw [if_neg h1]
          by_cases h3 : lit "Bachelor" <:+: pyStripChars mdChars (pyStrip l) ∨
              lit "Master" <:+: pyStripChars mdChars (pyStrip l) ∨
              lit "Degree" <:+: pyStripChars mdChars (pyStrip l)
          · rw [if_pos h3]; exact ih _ _
          · rw [if_neg h3]
            by_cases h4 : lit "Dates:" <:+: pyStripChars mdChars (pyStrip l)
            · rw [if_pos h4]
              rcases pySplit_two_of_infix (by decide) h4 with ⟨a, v, t, hsp⟩
              rw [hsp]
              exact ih _ _
            · rw [if_neg h4]
              by_cases h5 : lit "CCNA" <:+: pyStripChars mdChars (pyStrip l)
              · rw [if_pos h5]; exact ih _ _
              · rw [if_neg h5]; exact ih _ _

theorem parseProjLines_isSome : ∀ ls ps cur, (parseProjLines ls ps cur).isSome := by
  intro ls
  induction ls with
  | nil => intro ps cur; cases cur <;> simp [parseProjLines]
  | cons l rest ih =>
    intro ps cur
    have hname : ∀ (h1 : lit "Project:" <+: pyStripChars mdChars l ∨
        lit "Name:" <+: pyStripChars mdChars l), ':' ∈ pyStripChars mdChars l := by
      intro h1
      rcases h1 with h1 | h1
      · exact h1.subset (by decide)
      · exact h1.subset (by decide)
    cases cur with
    | none =>
      simp only [parseProjLines]
      by_cases h1 : lit "Project:" <+: pyStripChars mdChars l ∨
          lit "Name:" <+: pyStripChars mdChars l
      · rw [if_pos h1]
        rcases splitOnChar_two (hname h1) with ⟨a, v, t, hsp⟩
        rw [hsp]
        exact ih _ _
      · rw [if_neg h1]
        exact ih _ _
    | some p =>
      simp only [parseProjLines]
      by_cases h1 : lit "Project:" <+: pyStripChars mdChars l ∨
          lit "Name:" <+: pyStripChars mdChars l
      · rw [if_pos h1]
        rcases splitOnChar_two (hname h1) with ⟨a, v, t, hsp⟩
        rw [hsp]
        exact ih _ _
      · rw [if_neg h1]
        by_cases h2 : lit "Description:" <+: pyStripChars mdChars l
        · rw [if_pos h2]
          rcases splitOnChar_two (h2.subset (show ':' ∈ lit "Description:" by decide)) with
            ⟨a, v, t, hsp⟩
          rw [hsp]
          exact ih _ _
        · rw [if_neg h2]
          by_cases h3 : lit "Technologies:" <+: pyStripChars mdChars l
          · rw [if_pos h3]
            rcases splitOnChar_two (h3.subset (show ':' ∈ lit "Technologies:" by decide)) with
              ⟨a, v, t, hsp⟩
            rw [hsp]
            exact ih _ _
          · rw [if_neg h3]
            by_cases h4 : lit "URL:" <+: pyStripChars mdChars l
            · rw [if_pos h4]
              rcases splitOnChar_two (h4.subset (show ':' ∈ lit "URL:" by decide)) with
                ⟨a, v, t, hsp⟩
              rw [hsp]
              exact ih _ _
            · rw [if_neg h4]
              exact ih _ _

theorem parseExpLines_isSome : ∀ ls xs cur, (parseExpLines ls xs cur).isSome := by
  intro ls
  induction ls with
  | nil => intro xs cur; cases cur <;> simp [parseExpLines]
  | cons l rest ih =>
    intro xs cur
    cases cur with
    | none =>
      simp only [parseExpLines]
      by_cases h0 : pyStrip l = [] ∨ lit "EXPERIENCE" <:+: pyStrip l
      · rw [if_pos h0]; exact ih _ _
      · rw [if_neg h0]
        by_cases h1 : lit "####" <+: pyStrip l
        · rw [if_pos h1]; exact ih _ _
        · rw [if_neg h1]; exact ih _ _
    | some x =>
      simp only [parseExpLines]
      by_cases h0 : pyStrip l = [] ∨ lit "EXPERIENCE" <:+: pyStrip l
      · rw [if_pos h0]; exact ih _ _
      · rw [if_neg h0]
        by_cases h1 : lit "####" <+: pyStrip l
        · rw [if_pos h1]; exact ih _ _
        · rw [if_neg h1]
          by_cases h2 : lit "Title:" <+: pyStripChars mdChars (pyStrip l)
          · rw [if_pos h2]
            rcases pySplit_two_of_infix (by decide) h2.isInfix with ⟨a, v, t, hsp⟩
            rw [hsp]
            exact ih _ _
          · rw [if_neg h2]
            by_cases h3 : lit "Dates:" <+: pyStripChars mdChars (pyStrip l)
            · rw [if_pos h3]
              rcases pySplit_two_of_infix (by decide) h3.isInfix with ⟨a, v, t, hsp⟩
              rw [hsp]
              exact ih _ _
            · rw [if_neg h3]
              by_cases h4 : lit "Location:" <+: pyStripChars mdChars (pyStrip l)
              · rw [if_pos h4]
                rcases pySplit_two_of_infix (by decide) h4.isInfix with ⟨a, v, t, hsp⟩
                rw [hsp]
                exact ih _ _
              · rw [if_neg h4]
                by_cases h5 : pyStripChars mdChars (pyStrip l) ≠ [] ∧
                    ¬ lit "Title:" <:+: pyStripChars mdChars (pyStrip l) ∧
                    ¬ lit "Dates:" <:+: pyStripChars mdChars (pyStrip l) ∧
                    ¬ lit "Location:" <:+: pyStripChars mdChars (pyStrip l)
                · rw [if_pos h5]
                  by_cases h6 : pyStrip (pyStripChars mdChars (pyStrip l)) ≠ [] ∧
                      ¬ lit "**" <+: pyStripChars mdChars (pyStrip l)
                  · rw [if_pos h6]; exact ih _ _
                  · rw [if_neg h6]; exact ih _ _
                · rw [if_neg h5]; exact ih _ _

theorem parse_personal_info_isSome (sec : Str) : (parse_personal_info sec).isSome :=
  parsePersLines_isSome _ _

theorem parse_education_isSome (sec : Str) : (parse_education sec).isSome :=
  parseEduLines_isSome _ _ _

theorem parse_experience_isSome (sec : Str) : (parse_experience sec).isSome :=
  parseExpLines_isSome _ _ _

theorem parse_projects_isSome (sec : Str) : (parse_projects sec).isSome := by
  unfold parse_projects parseProjBuffer
  split
  · simp
  · exact parseProjLines_isSome _ _ _

theorem parseSections_isSome : ∀ ls d, (parseSections ls d).isSome := by
  intro ls
  induction ls with
  | nil => intro d; simp [parseSections]
  | cons s rest ih =>
    intro d
    simp only [parseSections]
    by_cases h0 : pyStrip s = []
    · rw [if_pos h0]; exact ih _
    · rw [if_neg h0]
      by_cases h1 : lit "PERSONAL INFORMATION" <:+: pyStrip s
      · rw [if_pos h1]
        rcases Option.isSome_iff_exists.mp (parse_personal_info_isSome (pyStrip s)) with ⟨v, hv⟩
        rw [hv]
        exact ih _
      · rw [if_neg h1]
        by_cases h2 : lit "EDUCATION" <:+: pyStrip s
        · rw [if_pos h2]
          rcases Option.isSome_iff_exists.mp (parse_education_isSome (pyStrip s)) with ⟨v, hv⟩
          rw [hv]
          exact ih _
        · rw [if_neg h2]
          by_cases h3 : lit "EXPERIENCE" <:+: pyStrip s
          · rw [if_pos h3]
            rcases Option.isSome_iff_exists.mp (parse_experience_isSome (pyStrip s)) with ⟨v, hv⟩
            rw [hv]
            exact ih _
          · rw [if_neg h3]
            by_cases h4 : lit "SKILLS" <:+: pyStrip s
            · rw [if_pos h4]; exact ih _
            · rw [if_neg h4]
              by_cases h5 : lit "PROJECTS" <:+: pyStrip s
              · rw [if_pos h5]
                rcases Option.isSome_iff_exists.mp (parse_projects_isSome (pyStrip s)) with ⟨v, hv⟩
                rw [hv]
                exact ih _
              · rw [if_neg h5]; exact ih _

theorem parse_llm_response_isSome (content : Str) : (parse_llm_response content).isSome :=
  parseSections_isSome _ _

/-! ### Claim C1 -/

/-- Claim C1, counterexample: `_parse_llm_response` does *not* signal any
error on empty or whitespace-only input; both return the default record
(the initial `parsed_data` dict) rather than failing.  No
`EmptyInputError` exists anywhere in the code. -/
theorem parse_llm_response_empty_input_returns_record :
    parse_llm_response (lit "") = some emptyParsed ∧
    parse_llm_response (lit "   ") = some emptyParsed := by
  constructor <;> decide

/-- Claim C1 (amended): `_parse_llm_response` never fails on any input:
for every input text, empty and whitespace-only texts included, it
returns a record (never the `None` of its `except` branch). -/
theorem parse_llm_response_never_fails (content : Str) :
    ∃ d, parse_llm_response content = some d :=
  Option.isSome_iff_exists.mp (parse_llm_response_isSome content)

/-! ### Claim C2 -/

theorem extractPages_eq_none {pages : List (Option Str)} (h : none ∈ pages) :
    extractPages pages = none := by
  induction pages with
  | nil => cases h
  | cons p rest ih =>
    rcases List.mem_cons.mp h with h1 | h1
    · rw [← h1]
      simp [extractPages]
    · cases p
      · simp [extractPages]
      · simp [extractPages, ih h1]

/-- Claim C2, counterexample: a two-page document whose second page
fails OCR produces *no* output at all — the recognized text `alpha` of
the first page appears in no returned output, because the exception
aborts the whole document instead of substituting an empty string. -/
theorem process_single_resume_no_partial_output :
    process_single_resume [some (lit "alpha"), none] = none := by
  decide

/-- Claim C2 (amended): a page OCR failure is fatal for the whole
document: whenever any page of a document fails OCR,
`process_single_resume` returns no text at all (there is no local
recovery and no empty-string substitution). -/
theorem process_single_resume_page_failure_is_fatal
    {pages : List (Option Str)} (h : none ∈ pages) :
    process_single_resume pages = none := by
  simp [process_single_resume, extractPages_eq_none h]

/-- Witness for the amended claim C2 at a concrete two-page document. -/
theorem process_single_resume_page_failure_is_fatal_w :
    (none ∈ [none, some (lit "beta")]) ∧
      process_single_resume [none, some (lit "beta")] = none :=
  ⟨by decide, process_single_resume_page_failure_is_fatal (by decide)⟩

/-! ### Claim C3 -/

/-- Claim C3, counterexample: a skills section consisting of the single
line `Technical skills: Python, Go, SQL` yields an *empty* technical
category, not `["Python", "Go", "SQL"]`: the label line only sets the
active category and its inline content after the colon is discarded. -/
theorem parse_skills_inline_label_content_not_extracted :
    (parse_skills (lit "Technical skills: Python, Go, SQL")).technical = [] ∧
    ([] : List Str) ≠ [lit "Python", lit "Go", lit "SQL"] := by
  constructor <;> decide

/-- Claim C3 (amended): a `Technical skills:` label line only activates
the technical category and contributes no tokens itself; the comma-split
tokens are extracted only from a subsequent unlabelled line.  So the
single-line section yields an empty technical category, while the same
content placed on the following line yields `["Python", "Go", "SQL"]`. -/
theorem parse_skills_label_line_content_dropped :
    (parse_skills (lit "Technical skills: Python, Go, SQL")).technical = [] ∧
    (parse_skills (lit "Technical skills:\nPython, Go, SQL")).technical =
      [lit "Python", lit "Go", lit "SQL"] := by
  constructor <;> decide

/-! ### Claim C5 -/

/-- Claim C5, counterexample: the skills categories are *not*
de-duplicated: a technical line listing `Python` twice stores it twice,
so a category can contain the same string at two positions. -/
theorem parse_skills_duplicates_retained :
    (parse_skills (lit "Technical skills:\nPython, Python")).technical =
      [lit "Python", lit "Python"] ∧
    ¬ (parse_skills (lit "Technical skills:\nPython, Python")).technical.Nodup := by
  constructor <;> decide

/-- Claim C5 (amended): `_parse_skills` performs no de-duplication at
all: an unlabelled, colon-free token line under an active category
contributes exactly its comma-split, trimmed, non-blank tokens, in
their order of occurrence and with repeats retained. -/
theorem parse_skills_tokens_appended_without_dedup (l : Str)
    (hne : pyStripChars mdChars l ≠ []) (hcolon : ':' ∉ pyStripChars mdChars l) :
    (parseSkillsLines [lit "Technical skills:", l] none emptySkills).technical =
      skillTokens (pyStripChars mdChars l) := by
  have hl1 : ¬ lit "Technical skills:" <:+: pyStripChars mdChars l :=
    fun h => hcolon (h.subset (by decide))
  have hl2 : ¬ lit "Soft skills:" <:+: pyStripChars mdChars l :=
    fun h => hcolon (h.subset (by decide))
  have hl3 : ¬ lit "Languages:" <:+: pyStripChars mdChars l :=
    fun h => hcolon (h.subset (by decide))
  have hl4 : ¬ lit "Tools:" <:+: pyStripChars mdChars l :=
    fun h => hcolon (h.subset (by decide))
  simp only [parseSkillsLines]
  rw [if_pos (show lit "Technical skills:" <:+:
      pyStripChars mdChars (lit "Technical skills:") by decide)]
  rw [if_neg hl1, if_neg hl2, if_neg hl3, if_neg hl4]
  show (if pyStripChars mdChars l ≠ [] ∧ ':' ∉ pyStripChars mdChars l then
      if skillTokens (pyStripChars mdChars l) = [] then
        parseSkillsLines [] (some SkillCat.technical) emptySkills
      else
        parseSkillsLines [] (some SkillCat.technical)
          (addSkills emptySkills SkillCat.technical (skillTokens (pyStripChars mdChars l)))
    else parseSkillsLines [] (some SkillCat.technical) emptySkills).technical =
    skillTokens (pyStripChars mdChars l)
  rw [if_pos ⟨hne, hcolon⟩]
  by_cases hts : skillTokens (pyStripChars mdChars l) = []
  · rw [if_pos hts]
    simp [parseSkillsLines, emptySkills, hts]
  · rw [if_neg hts]
    simp [parseSkillsLines, addSkills, emptySkills]

/-- Witness for the amended claim C5 at a concrete duplicated line. -/
theorem parse_skills_tokens_appended_without_dedup_w :
    pyStripChars mdChars (lit "Python, Python") ≠ [] ∧
    ':' ∉ pyStripChars mdChars (lit "Python, Python") ∧
    (parseSkillsLines [lit "Technical skills:", lit "Python, Python"]
        none emptySkills).technical =
      skillTokens (pyStripChars mdChars (lit "Python, Python")) :=
  ⟨by decide, by decide,
    parse_skills_tokens_appended_without_dedup (lit "Python, Python")
      (by decide) (by decide)⟩

/-! ### Invariants of the education parser (shared by several claims) -/

theorem setF_keys (k : String) (v : FVal) (d : EduItem) :
    (setF k v d).map Prod.fst = d.map Prod.fst := by
  induction d with
  | nil => rfl
  | cons p rest ih =>
    simp only [setF, List.map_cons] at ih ⊢
    rw [ih]
    by_cases hp : p.1 = k
    · rw [if_pos hp]
    · rw [if_neg hp]

theorem addCert_keys (c : Cert) (d : EduItem) :
    (addCert c d).map Prod.fst = d.map Prod.fst := by
  induction d with
  | nil => rfl
  | cons p rest ih =>
    simp only [addCert, List.map_cons] at ih ⊢
    rw [ih]
    by_cases hp : p.1 = "certifications"
    · rw [if_pos hp]
      cases p.2 <;> rfl
    · rw [if_neg hp]

/-- Every mutation `_parse_education` performs on an open item preserves
any property `P` that survives item creation, string-field assignment
and appending the hard-coded CCNA certification; hence `P` holds of all
returned items. -/
theorem parseEduLines_inv (P : EduItem → Prop)
    (hnew : ∀ inst, P (newEduItem inst))
    (hsetStr : ∀ k x d, P d → P (setF k (FVal.str x) d))
    (haddC : ∀ d, P d → P (addCert ccnaCert d)) :
    ∀ ls items cur out, parseEduLines ls items cur = some out →
      (∀ it ∈ items, P it) → (∀ it, cur = some it → P it) →
      ∀ it ∈ out, P it := by
  intro ls
  induction ls with
  | nil =>
    intro items cur out h hitems hcur
    cases cur with
    | none =>
      simp only [parseEduLines, List.append_nil, Option.some_inj] at h
      subst h
      exact hitems
    | some it =>
      simp only [parseEduLines, Option.some_inj] at h
      subst h
      intro it' hit'
      rcases List.mem_append.mp hit' with h1 | h1
      · exact hitems it' h1
      · rw [List.mem_singleton.mp h1]
        exact hcur it rfl
  | cons l rest ih =>
    intro items cur out h hitems hcur
    have hmark :
        ∀ items1, (∀ it ∈ items1, P it) →
          parseEduLines (l :: rest) items1 none = some out →
          ¬ (pyStrip l = [] ∨ lit "EDUCATION" <:+: pyStrip l) →
          (lit "- **" <+: pyStrip l ∧ ¬ lit "Title:" <:+: pyStrip l ∧
            ¬ lit "Dates:" <:+: pyStrip l) →
          ∀ it ∈ out, P it := by
      intro items1 hitems1 h h0 h1
      simp only [parseEduLines] at h
      rw [if_neg h0, if_pos h1] at h
      by_cases h2 : ',' ∈ pyStripChars mdChars (pyStrip l)
      · rw [if_pos h2] at h
        rcases splitOnChar_two h2 with ⟨a, v, t, hsp⟩
        rw [hsp] at h
        refine ih _ _ _ h hitems1 ?_
        intro it' hit'
        rw [← Option.some_inj.mp hit']
        exact hsetStr _ _ _ (hsetStr _ _ _ (hnew _))
      · rw [if_neg h2] at h
        refine ih _ _ _ h hitems1 ?_
        intro it' hit'
        rw [← Option.some_inj.mp hit']
        exact hnew _
    cases cur with
    | none =>
      by_cases h0 : pyStrip l = [] ∨ lit "EDUCATION" <:+: pyStrip l
      · simp only [parseEduLines] at h
        rw [if_pos h0] at h
        exact ih _ _ _ h hitems (fun it' hit' => by cases hit')
      · by_cases h1 : lit "- **" <+: pyStrip l ∧ ¬ lit "Title:" <:+: pyStrip l ∧
            ¬ lit "Dates:" <:+: pyStrip l
        · exact hmark items hitems h h0 h1
        · simp only [parseEduLines] at h
          rw [if_neg h0, if_neg h1] at h
          exact ih _ _ _ h hitems (fun it' hit' => by cases hit')
    | some it =>
      have hP : P it := hcur it rfl
      by_cases h0 : pyStrip l = [] ∨ lit "EDUCATION" <:+: pyStrip l
      · simp only [parseEduLines] at h
        rw [if_pos h0] at h
        exact ih _ _ _ h hitems hcur
      · by_cases h1 : lit "- **" <+: pyStrip l ∧ ¬ lit "Title:" <:+: pyStrip l ∧
            ¬ lit "Dates:" <:+: pyStrip l
        · have hitems1 : ∀ it' ∈ items ++ [it], P it' := by
            intro it' hit'
            rcases List.mem_append.mp hit' with h2 | h2
            · exact hitems it' h2
            · rw [List.mem_singleton.mp h2]
              exact hP
          have h' : parseEduLines (l :: rest) (items ++ [it]) none = some out := by
            simp only [parseEduLines] at h ⊢
            rw [if_neg h0, if_pos h1] at h ⊢
            exact h
          exact hmark (items ++ [it]) hitems1 h' h0 h1
        · simp only [parseEduLines] at h
          rw [if_neg h0, if_neg h1] at h
          by_cases h3 : lit "Bachelor" <:+: pyStripChars mdChars (pyStrip l) ∨
              lit "Master" <:+: pyStripChars mdChars (pyStrip l) ∨
              lit "Degree" <:+: pyStripChars mdChars (pyStrip l)
          · rw [if_pos h3] at h
            refine ih _ _ _ h hitems ?_
            intro it' hit'
            rw [← Option.some_inj.mp hit']
            exact hsetStr _ _ _ hP
          · rw [if_neg h3] at h
            by_cases h4 : lit "Dates:" <:+: pyStripChars mdChars (pyStrip l)
            · rw [if_pos h4] at h
              rcases pySplit_two_of_infix (by decide) h4 with ⟨a, v, t, hsp⟩
              rw [hsp] at h
              refine ih _ _ _ h hitems ?_
              intro it' hit'
              rw [← Option.some_inj.mp hit']
              exact hsetStr _ _ _ hP
            · rw [if_neg h4] at h
              by_cases h5 : lit "CCNA" <:+: pyStripChars mdChars (pyStrip l)
              · rw [if_pos h5] at h
                refine ih _ _ _ h hitems ?_
                intro it' hit'
                rw [← Option.some_inj.mp hit']
                exact haddC _ hP
              · rw [if_neg h5] at h
                exact ih _ _ _ h hitems hcur

/-- Lifting an education-item property through the section dispatcher:
items enter `parsed_data["education"]` only via `_parse_education`. -/
theorem parseSections_education_inv (P : EduItem → Prop)
    (hP : ∀ sec out, parse_education sec = some out → ∀ it ∈ out, P it) :
    ∀ ls d out, parseSections ls d = some out →
      (∀ it ∈ d.education, P it) → ∀ it ∈ out.education, P it := by
  intro ls
  induction ls with
  | nil =>
    intro d out h hinv
    simp only [parseSections, Option.some_inj] at h
    subst h
    exact hinv
  | cons s rest ih =>
    intro d out h hinv
    simp only [parseSections] at h
    by_cases h0 : pyStrip s = []
    · rw [if_pos h0] at h
      exact ih _ _ h hinv
    · rw [if_neg h0] at h
      by_cases h1 : lit "PERSONAL INFORMATION" <:+: pyStrip s
      · rw [if_pos h1] at h
        rcases Option.isSome_iff_exists.mp (parse_personal_info_isSome (pyStrip s)) with ⟨v, hv⟩
        rw [hv] at h
        exact ih _ _ h hinv
      · rw [if_neg h1] at h
        by_cases h2 : lit "EDUCATION" <:+: pyStrip s
        · rw [if_pos h2] at h
          rcases Option.isSome_iff_exists.mp (parse_education_isSome (pyStrip s)) with ⟨es, hes⟩
          rw [hes] at h
          refine ih _ _ h ?_
          intro it hit
          rcases List.mem_append.mp hit with h3 | h3
          · exact hinv it h3
          · exact hP _ _ hes it h3
        · rw [if_neg h2] at h
          by_cases h3 : lit "EXPERIENCE" <:+: pyStrip s
          · rw [if_pos h3] at h
            rcases Option.isSome_iff_exists.mp (parse_experience_isSome (pyStrip s)) with ⟨v, hv⟩
            rw [hv] at h
            exact ih _ _ h hinv
          · rw [if_neg h3] at h
            by_cases h4 : lit "SKILLS" <:+: pyStrip s
            · rw [if_pos h4] at h
              exact ih _ _ h hinv
            · rw [if_neg h4] at h
              by_cases h5 : lit "PROJECTS" <:+: pyStrip s
              · rw [if_pos h5] at h
                rcases Option.isSome_iff_exists.mp (parse_projects_isSome (pyStrip s)) with ⟨v, hv⟩
                rw [hv] at h
                exact ih _ _ h hinv
              · rw [if_neg h5] at h
                exact ih _ _ h hinv

/-! ### Claim C4 -/

/-- Claim C4, counterexample: the education item parsed from the marker
line `- **MIT**` has no `gpa` key and no `coursework` key at all — the
item dict is created with exactly five keys. -/
theorem parse_education_item_lacks_gpa_and_coursework :
    parse_llm_response (lit "EDUCATION\n- **MIT**") =
      some { emptyParsed with education := [newEduItem (lit "MIT")] } ∧
    List.lookup "gpa" (newEduItem (lit "MIT")) = none ∧
    List.lookup "coursework" (newEduItem (lit "MIT")) = none := by
  refine ⟨by decide, by decide, by decide⟩

/-- Claim C4 (amended): every education item of the record returned by
`_parse_llm_response` has exactly the five fields `institution`,
`location`, `degree`, `dates` and `certifications` (in this order);
`gpa` and `coursework` are never present. -/
theorem parse_llm_response_education_keys (content : Str) (d : ParsedData)
    (it : EduItem) (h : parse_llm_response content = some d)
    (hit : it ∈ d.education) : it.map Prod.fst = eduKeys := by
  refine parseSections_education_inv (fun it => it.map Prod.fst = eduKeys)
    ?_ _ _ _ h (by intro it' hit'; cases hit') it hit
  intro sec out hout
  refine parseEduLines_inv (fun it => it.map Prod.fst = eduKeys)
    (fun inst => rfl) ?_ ?_ _ _ _ _ hout
    (by intro it' hit'; cases hit') (by intro it' hit'; cases hit')
  · intro k x d hd
    rw [setF_keys, hd]
  · intro d hd
    rw [addCert_keys, hd]

/-- Witness for the amended claim C4 at a concrete education section. -/
theorem parse_llm_response_education_keys_w :
    parse_llm_response (lit "EDUCATION\n- **Georgia Tech**") =
      some { emptyParsed with education := [newEduItem (lit "Georgia Tech")] } ∧
    newEduItem (lit "Georgia Tech") ∈
      [newEduItem (lit "Georgia Tech")] ∧
    (newEduItem (lit "Georgia Tech")).map Prod.fst = eduKeys :=
  ⟨by decide, by decide,
    parse_llm_response_education_keys (lit "EDUCATION\n- **Georgia Tech**")
      { emptyParsed with education := [newEduItem (lit "Georgia Tech")] }
      (newEduItem (lit "Georgia Tech")) (by decide) (by decide)⟩

/-! ### Claim C10 -/

/-- Claim C10: every certification record stored in any education item
of any record returned by `_parse_llm_response` is the hard-coded
constant `name = "CCNA 200-301"`, `date = "October 2024"`, whatever
the certification text of the input line was. -/
theorem parse_llm_response_ccna_cert_constant (content : Str) (d : ParsedData)
    (it : EduItem) (p : String × FVal) (cs : List Cert) (c : Cert)
    (h : parse_llm_response content = some d) (hit : it ∈ d.education)
    (hp : p ∈ it) (hcs : p.2 = FVal.certs cs) (hc : c ∈ cs) : c = ccnaCert := by
  have hinv := parseSections_education_inv
    (fun it => ∀ p ∈ it, ∀ cs, p.2 = FVal.certs cs → ∀ c ∈ cs, c = ccnaCert)
    ?_ _ _ _ h (by intro it' hit'; cases hit') it hit
  · exact hinv p hp cs hcs c hc
  intro sec out hout
  refine parseEduLines_inv _ ?_ ?_ ?_ _ _ _ _ hout
    (by intro it' hit'; cases hit') (by intro it' hit'; cases hit')
  · intro inst p hp cs hcs c hc
    simp only [newEduItem, List.mem_cons, List.not_mem_nil, or_false] at hp
    rcases hp with h1 | h1 | h1 | h1 | h1
    · rw [h1] at hcs; exact FVal.noConfusion hcs
    · rw [h1] at hcs; exact FVal.noConfusion hcs
    · rw [h1] at hcs; exact FVal.noConfusion hcs
    · rw [h1] at hcs; exact FVal.noConfusion hcs
    · rw [h1] at hcs
      have hnil : cs = [] := by
        have h2 := hcs
        simp only [FVal.certs.injEq] at h2
        exact h2.symm
      rw [hnil] at hc
      cases hc
  · intro k x d hd p hp cs hcs c hc
    rcases List.mem_map.mp hp with ⟨q, hq, himg⟩
    by_cases hqk : q.1 = k
    · rw [if_pos hqk] at himg
      rw [← himg] at hcs
      simp only at hcs
      exact FVal.noConfusion hcs
    · rw [if_neg hqk] at himg
      rw [← himg] at hcs
      exact hd q hq cs hcs c hc
  · intro d hd p hp cs hcs c hc
    rcases List.mem_map.mp hp with ⟨q, hq, himg⟩
    by_cases hqk : q.1 = "certifications"
    · rw [if_pos hqk] at himg
      cases hq2 : q.2 with
      | str s =>
        rw [hq2] at himg
        rw [← himg] at hcs
        exact hd q hq cs (by rw [hq2]; exact hcs) c hc
      | certs cs0 =>
        rw [hq2] at himg
        rw [← himg] at hcs
        simp only [FVal.certs.injEq] at hcs
        rw [← hcs] at hc
        rcases List.mem_append.mp hc with h1 | h1
        · exact hd q hq cs0 hq2 c h1
        · exact List.mem_singleton.mp h1
    · rw [if_neg hqk] at himg
      rw [← himg] at hcs
      exact hd q hq cs hcs c hc

/-- Witness for claim C10: a concrete education section whose CCNA line
names a different certification and date still stores the constant. -/
theorem parse_llm_response_ccna_cert_constant_w :
    parse_llm_response (lit "EDUCATION\n- **MIT**\nCCNA Security passed June 2019") =
      some { emptyParsed with education := [addCert ccnaCert (newEduItem (lit "MIT"))] } ∧
    ccnaCert = ccnaCert :=
  ⟨by decide,
    parse_llm_response_ccna_cert_constant
      (lit "EDUCATION\n- **MIT**\nCCNA Security passed June 2019")
      { emptyParsed with education := [addCert ccnaCert (newEduItem (lit "MIT"))] }
      (addCert ccnaCert (newEduItem (lit "MIT")))
      ("certifications", FVal.certs [ccnaCert]) [ccnaCert] ccnaCert
      (by decide) (by decide) (by decide) (by decide) (by decide)⟩

/-! ### Claim C8 -/

/-- Claim C8: whenever any line of a projects buffer contains the phrase
`no explicitly listed projects`, the whole buffer parses to the empty
project list, whatever the other lines contain. -/
theorem parse_projects_empty_phrase (lines : List Str)
    (h : ∃ l ∈ lines, noProjPhrase <:+: l) :
    parseProjBuffer lines = some [] := by
  rcases h with ⟨l, hl, hinf⟩
  have hmap : noProjPhrase <:+: l.map Char.toLower := by
    have h2 := hinf.map Char.toLower
    rwa [show noProjPhrase.map Char.toLower = noProjPhrase from by decide] at h2
  unfold parseProjBuffer
  rw [if_pos ⟨l, hl, hmap⟩]

/-- Witness for claim C8: the phrase empties the section even though a
`Project:` line is present. -/
theorem parse_projects_empty_phrase_w :
    (∃ l ∈ [lit "Project: Zeus", lit "There are no explicitly listed projects here"],
      noProjPhrase <:+: l) ∧
    parseProjBuffer [lit "Project: Zeus",
      lit "There are no explicitly listed projects here"] = some [] :=
  ⟨by decide, parse_projects_empty_phrase _ (by decide)⟩

/-! ### Lemmas for claim C9 -/

theorem pyStrip_subset {x : Char} {s : Str} (h : x ∈ pyStrip s) : x ∈ s := by
  unfold pyStrip at h
  rw [List.mem_reverse] at h
  have h1 := (List.dropWhile_suffix isSpace).sublist.subset h
  rw [List.mem_reverse] at h1
  exact (List.dropWhile_suffix isSpace).sublist.subset h1

theorem dropWhile_append_of_fix {p : Char → Bool} {l₂ : List Char}
    (h : l₂.dropWhile p = l₂) (l₁ : List Char) :
    (l₁ ++ l₂).dropWhile p = l₁.dropWhile p ++ l₂ := by
  induction l₁ with
  | nil => simpa using h
  | cons a l₁ ih =>
    by_cases ha : p a
    · simp only [List.cons_append, List.dropWhile_cons, ha, if_true]
      exact ih
    · simp [List.cons_append, List.dropWhile_cons, ha]

theorem takeWhile_append_of_stop {p : Char → Bool} {l₁ : List Char}
    (h : ∃ x ∈ l₁, p x = false) (l₂ : List Char) :
    (l₁ ++ l₂).takeWhile p = l₁.takeWhile p := by
  induction l₁ with
  | nil =>
    rcases h with ⟨x, hx, _⟩
    cases hx
  | cons a l₁ ih =>
    by_cases ha : p a
    · simp only [List.cons_append, List.takeWhile_cons, ha, if_true]
      rcases h with ⟨x, hx, hpx⟩
      rcases List.mem_cons.mp hx with h1 | h1
      · rw [h1] at hpx
        rw [hpx] at ha
        cases ha
      · rw [ih ⟨x, h1, hpx⟩]
    · simp [List.cons_append, List.takeWhile_cons, ha]

/-- `rstripC` removes a suffix all of whose characters are in `cs`. -/
theorem rstripC_decomp (cs : List Char) (u : Str) :
    ∃ t, u = rstripC cs u ++ t ∧ ∀ x ∈ t, x ∈ cs := by
  refine ⟨(u.reverse.takeWhile (fun c => c ∈ cs)).reverse, ?_, ?_⟩
  · unfold rstripC
    rw [← List.reverse_append]
    rw [List.takeWhile_append_dropWhile (p := fun c => decide (c ∈ cs)) (l := u.reverse)]
    rw [List.reverse_reverse]
  · intro x hx
    rw [List.mem_reverse] at hx
    have := List.mem_takeWhile_imp hx
    simpa using this

/-- Stored project urls never contain a colon: every url the parser
stores is the text strictly between the first and second colon of its
line. -/
theorem parseProjLines_url_no_colon :
    ∀ ls ps cur out, parseProjLines ls ps cur = some out →
      (∀ q ∈ ps, ':' ∉ q.url) → (∀ q, cur = some q → ':' ∉ q.url) →
      ∀ q ∈ out, ':' ∉ q.url := by
  intro ls
  induction ls with
  | nil =>
    intro ps cur out h hps hcur
    cases cur with
    | none =>
      simp only [parseProjLines, List.append_nil, Option.some_inj] at h
      subst h
      exact hps
    | some p =>
      simp only [parseProjLines, Option.some_inj] at h
      subst h
      intro q hq
      rcases List.mem_append.mp hq with h1 | h1
      · exact hps q h1
      · rw [List.mem_singleton.mp h1]
        exact hcur p rfl
  | cons l rest ih =>
    intro ps cur out h hps hcur
    have hname : ∀ (h1 : lit "Project:" <+: pyStripChars mdChars l ∨
        lit "Name:" <+: pyStripChars mdChars l), ':' ∈ pyStripChars mdChars l := by
      intro h1
      rcases h1 with h1 | h1
      · exact h1.subset (by decide)
      · exact h1.subset (by decide)
    cases cur with
    | none =>
      simp only [parseProjLines] at h
      by_cases h1 : lit "Project:" <+: pyStripChars mdChars l ∨
          lit "Name:" <+: pyStripChars mdChars l
      · rw [if_pos h1] at h
        rcases splitOnChar_two (hname h1) with ⟨a, v, t, hsp⟩
        rw [hsp] at h
        refine ih _ _ _ h hps ?_
        intro q hq
        rw [← Option.some_inj.mp hq]
        simp
      · rw [if_neg h1] at h
        exact ih _ _ _ h hps (fun q hq => by cases hq)
    | some p =>
      have hP : ':' ∉ p.url := hcur p rfl
      simp only [parseProjLines] at h
      by_cases h1 : lit "Project:" <+: pyStripChars mdChars l ∨
          lit "Name:" <+: pyStripChars mdChars l
      · rw [if_pos h1] at h
        rcases splitOnChar_two (hname h1) with ⟨a, v, t, hsp⟩
        rw [hsp] at h
        refine ih _ _ _ h ?_ ?_
        · intro q hq
          rcases List.mem_append.mp hq with h2 | h2
          · exact hps q h2
          · rw [List.mem_singleton.mp h2]
            exact hP
        · intro q hq
          rw [← Option.some_inj.mp hq]
          simp
      · rw [if_neg h1] at h
        by_cases h2 : lit "Description:" <+: pyStripChars mdChars l
        · rw [if_pos h2] at h
          rcases splitOnChar_two (h2.subset (show ':' ∈ lit "Description:" by decide)) with
            ⟨a, v, t, hsp⟩
          rw [hsp] at h
          refine ih _ _ _ h hps ?_
          intro q hq
          rw [← Option.some_inj.mp hq]
          exact hP
        · rw [if_neg h2] at h
          by_cases h3 : lit "Technologies:" <+: pyStripChars mdChars l
          · rw [if_pos h3] at h
            rcases splitOnChar_two (h3.subset (show ':' ∈ lit "Technologies:" by decide)) with
              ⟨a, v, t, hsp⟩
            rw [hsp] at h
            refine ih _ _ _ h hps ?_
            intro q hq
            rw [← Option.some_inj.mp hq]
            exact hP
          · rw [if_neg h3] at h
            by_cases h4 : lit "URL:" <+: pyStripChars mdChars l
            · rw [if_pos h4] at h
              rcases splitOnChar_two (h4.subset (show ':' ∈ lit "URL:" by decide)) with
                ⟨a, v, t, hsp⟩
              rw [hsp] at h
              refine ih _ _ _ h hps ?_
              intro q hq
              rw [← Option.some_inj.mp hq]
              intro hmem
              have hv : v ∈ splitOnChar ':' (pyStripChars mdChars l) := by
                rw [hsp]
                exact List.mem_cons_of_mem a (List.mem_cons_self v t)
              exact not_mem_of_mem_splitOnChar hv (pyStrip_subset hmem)
            · rw [if_neg h4] at h
              exact ih _ _ _ h hps hcur

/-- `strip('- *')` leaves a line of the form `URL:<u>` with its `URL:`
label intact: the label starts with `U` and ends with `:`, neither of
which is stripped, so only a trailing run of `-`, space and `*`
characters inside `u` is removed. -/
theorem urlLine_strip (u : Str) :
    pyStripChars mdChars (lit "URL:" ++ u) = lit "URL:" ++ rstripC mdChars u := by
  have h1 : lstripC mdChars (lit "URL:" ++ u) = lit "URL:" ++ u := by
    unfold lstripC
    rw [show (lit "URL:" ++ u : Str) = 'U' :: (lit "RL:" ++ u) from rfl]
    rw [List.dropWhile_cons]
    rw [if_neg (show ¬ (decide ('U' ∈ mdChars) = true) from by decide)]
  unfold pyStripChars
  rw [h1]
  unfold rstripC
  rw [show (lit "URL:" ++ u : Str) = (['U', 'R', 'L', ':'] : Str) ++ u from rfl]
  rw [List.reverse_append]
  rw [dropWhile_append_of_fix (by decide) u.reverse]
  rw [List.reverse_append]
  rw [List.reverse_reverse]
  rfl

/-- One step of the project loop on an open item, written out: holds by
definitional unfolding of `parseProjLines`. -/
theorem parseProjLines_cons_some (l : Str) (rest : List Str) (ps : List Project)
    (p : Project) :
    parseProjLines (l :: rest) ps (some p) =
      (if lit "Project:" <+: pyStripChars mdChars l ∨
          lit "Name:" <+: pyStripChars mdChars l then
        match splitOnChar ':' (pyStripChars mdChars l) with
        | _ :: v :: _ => parseProjLines rest (ps ++ [p]) (some ⟨pyStrip v, [], [], []⟩)
        | _ => none
      else if lit "Description:" <+: pyStripChars mdChars l then
        match splitOnChar ':' (pyStripChars mdChars l) with
        | _ :: v :: _ => parseProjLines rest ps (some { p with description := pyStrip v })
        | _ => none
      else if lit "Technologies:" <+: pyStripChars mdChars l then
        match splitOnChar ':' (pyStripChars mdChars l) with
        | _ :: v :: _ =>
          parseProjLines rest ps
            (some { p with technologies :=
              (splitOnChar ',' (pyStrip v)).map pyStrip })
        | _ => none
      else if lit "URL:" <+: pyStripChars mdChars l then
        match splitOnChar ':' (pyStripChars mdChars l) with
        | _ :: v :: _ => parseProjLines rest ps (some { p with url := pyStrip v })
        | _ => none
      else parseProjLines rest ps (some p)) := rfl

/-! ### Claim C9 -/

/-- Claim C9: a `URL:` line inside an open project item stores as url
the whitespace-trimmed text strictly between the first and second colon
of the line, that is, the trimmed prefix of `u` before its first colon
(so an absolute URL such as `https://example.com` is truncated to
`https`); and no url stored by the projects parser ever contains a
colon. -/
theorem parse_projects_url_truncated_at_colon (u : Str) (ps : List Project)
    (p : Project) (hc : ':' ∈ u) :
    parseProjLines [lit "URL:" ++ u] ps (some p) =
      some (ps ++ [{ p with url := pyStrip (u.takeWhile (· != ':')) }]) ∧
    ':' ∉ pyStrip (u.takeWhile (· != ':')) ∧
    (∀ ls out, parseProjLines ls [] none = some out → ∀ q ∈ out, ':' ∉ q.url) := by
  refine ⟨?_, ?_, ?_⟩
  · rw [parseProjLines_cons_some]
    rw [urlLine_strip]
    set ru := rstripC mdChars u with hru
    have hnp : ¬ (lit "Project:" <+: lit "URL:" ++ ru ∨
        lit "Name:" <+: lit "URL:" ++ ru) := by
      rintro (h | h)
      · rw [show (lit "Project:" : Str) = 'P' :: lit "roject:" from rfl,
          show (lit "URL:" ++ ru : Str) = 'U' :: (lit "RL:" ++ ru) from rfl,
          List.cons_prefix_cons] at h
        exact absurd h.1 (by decide)
      · rw [show (lit "Name:" : Str) = 'N' :: lit "ame:" from rfl,
          show (lit "URL:" ++ ru : Str) = 'U' :: (lit "RL:" ++ ru) from rfl,
          List.cons_prefix_cons] at h
        exact absurd h.1 (by decide)
    have hdesc : ¬ lit "Description:" <+: lit "URL:" ++ ru := by
      intro h
      rw [show (lit "Description:" : Str) = 'D' :: lit "escription:" from rfl,
        show (lit "URL:" ++ ru : Str) = 'U' :: (lit "RL:" ++ ru) from rfl,
        List.cons_prefix_cons] at h
      exact absurd h.1 (by decide)
    have htech : ¬ lit "Technologies:" <+: lit "URL:" ++ ru := by
      intro h
      rw [show (lit "Technologies:" : Str) = 'T' :: lit "echnologies:" from rfl,
        show (lit "URL:" ++ ru : Str) = 'U' :: (lit "RL:" ++ ru) from rfl,
        List.cons_prefix_cons] at h
      exact absurd h.1 (by decide)
    have hurl : lit "URL:" <+: lit "URL:" ++ ru := List.prefix_append _ _
    rw [if_neg hnp, if_neg hdesc, if_neg htech, if_pos hurl]
    have hcl : ':' ∈ lit "URL:" ++ ru := List.mem_append.mpr (Or.inl (by decide))
    rcases splitOnChar_head_second hcl with ⟨t, hsp⟩
    rw [hsp]
    have hdrop : (lit "URL:" ++ ru).dropWhile (· != ':') = ':' :: ru := by
      show List.dropWhile _ ('U' :: 'R' :: 'L' :: ':' :: ru) = _
      rw [List.dropWhile_cons, if_pos (show ('U' != ':') = true from rfl)]
      rw [List.dropWhile_cons, if_pos (show ('R' != ':') = true from rfl)]
      rw [List.dropWhile_cons, if_pos (show ('L' != ':') = true from rfl)]
      rw [List.dropWhile_cons, if_neg (show ¬ ((':' != ':') = true) from by decide)]
    rw [hdrop, List.tail_cons]
    have htake : ru.takeWhile (· != ':') = u.takeWhile (· != ':') := by
      rcases rstripC_decomp mdChars u with ⟨t2, hu, ht2⟩
      have hcr : ':' ∈ ru := by
        rw [hu] at hc
        rcases List.mem_append.mp hc with h1 | h1
        · exact h1
        · exact absurd (ht2 ':' h1) (by decide)
      conv_rhs => rw [hu]
      rw [takeWhile_append_of_stop ⟨':', hcr, by decide⟩ t2]
    rw [htake]
    simp [parseProjLines]
  · intro hmem
    have h2 := List.mem_takeWhile_imp (pyStrip_subset hmem)
    simp at h2
  · intro ls out h q hq
    exact parseProjLines_url_no_colon ls [] none out h (fun q hq => by cases hq)
      (fun q hq => by cases hq) q hq

/-- Witness for claim C9 at the absolute URL of the claim: the stored
url is the truncated `https`. -/
theorem parse_projects_url_truncated_at_colon_w :
    (':' ∈ lit "https://example.com") ∧
    parseProjLines [lit "URL:" ++ lit "https://example.com"] []
        (some ⟨lit "P", [], [], []⟩) =
      some [{ (⟨lit "P", [], [], []⟩ : Project) with
        url := pyStrip ((lit "https://example.com").takeWhile (· != ':')) }] ∧
    pyStrip ((lit "https://example.com").takeWhile (· != ':')) = lit "https" :=
  ⟨by decide,
    (parse_projects_url_truncated_at_colon (lit "https://example.com") []
      ⟨lit "P", [], [], []⟩ (by decide)).1,
    by decide⟩

/-! ### Claim C7 -/

/-- Claim C7, counterexample: the marker text `MIT, Cambridge, MA`
contains two commas; the stored location is `Cambridge` — the text
between the first and second comma — not the entire remainder
`Cambridge, MA` after the first comma. -/
theorem parse_education_two_comma_location_truncated :
    parse_education (lit "- **MIT, Cambridge, MA**") =
      some [[("institution", FVal.str (lit "MIT")),
             ("location", FVal.str (lit "Cambridge")),
             ("degree", FVal.str []), ("dates", FVal.str []),
             ("certifications", FVal.certs [])]] ∧
    lit "Cambridge" ≠ lit "Cambridge, MA" := by
  constructor <;> decide

/-- Claim C7 (amended): for every education item-start marker line whose
stripped text contains a comma, the new item stores as institution the
trimmed text before the first comma and as location the trimmed text
strictly between the first and second comma (for a single-comma marker
that is the entire remainder; for two or more commas everything from the
second comma on is dropped). -/
theorem parseEduLines_marker_comma_split (m : Str)
    (h0 : ¬ (pyStrip m = [] ∨ lit "EDUCATION" <:+: pyStrip m))
    (h1 : lit "- **" <+: pyStrip m ∧ ¬ lit "Title:" <:+: pyStrip m ∧
      ¬ lit "Dates:" <:+: pyStrip m)
    (h2 : ',' ∈ pyStripChars mdChars (pyStrip m)) :
    parseEduLines [m] [] none =
      some [[("institution",
              FVal.str (pyStrip ((pyStripChars mdChars (pyStrip m)).takeWhile (· != ',')))),
             ("location",
              FVal.str (pyStrip (((pyStripChars mdChars (pyStrip m)).dropWhile
                (· != ',')).tail.takeWhile (· != ',')))),
             ("degree", FVal.str []), ("dates", FVal.str []),
             ("certifications", FVal.certs [])]] := by
  simp only [parseEduLines]
  rw [if_neg h0, if_pos h1, if_pos h2]
  rcases splitOnChar_head_second h2 with ⟨t, hsp⟩
  rw [hsp]
  rfl

/-- Witness for the amended claim C7 at a two-comma marker. -/
theorem parseEduLines_marker_comma_split_w :
    (¬ (pyStrip (lit "- **MIT, Cambridge, MA**") = [] ∨
      lit "EDUCATION" <:+: pyStrip (lit "- **MIT, Cambridge, MA**"))) ∧
    (lit "- **" <+: pyStrip (lit "- **MIT, Cambridge, MA**") ∧
      ¬ lit "Title:" <:+: pyStrip (lit "- **MIT, Cambridge, MA**") ∧
      ¬ lit "Dates:" <:+: pyStrip (lit "- **MIT, Cambridge, MA**")) ∧
    (',' ∈ pyStripChars mdChars (pyStrip (lit "- **MIT, Cambridge, MA**"))) ∧
    parseEduLines [lit "- **MIT, Cambridge, MA**"] [] none =
      some [[("institution",
              FVal.str (pyStrip ((pyStripChars mdChars
                (pyStrip (lit "- **MIT, Cambridge, MA**"))).takeWhile (· != ',')))),
             ("location",
              FVal.str (pyStrip (((pyStripChars mdChars
                (pyStrip (lit "- **MIT, Cambridge, MA**"))).dropWhile
                  (· != ',')).tail.takeWhile (· != ',')))),
             ("degree", FVal.str []), ("dates", FVal.str []),
             ("certifications", FVal.certs [])]] :=
  ⟨by decide, by decide, by decide,
    parseEduLines_marker_comma_split (lit "- **MIT, Cambridge, MA**")
      (by decide) (by decide) (by decide)⟩

/-! ### Lemmas for claim C6: the shape of cleaned text -/

theorem headSpace_dropWhile (u : Str) : headSpace (u.dropWhile isSpace) = false := by
  induction u with
  | nil => rfl
  | cons c r ih =>
    rw [List.dropWhile_cons]
    by_cases hc : isSpace c = true
    · rw [if_pos hc]
      exact ih
    · rw [if_neg hc]
      rw [show headSpace (c :: r) = isSpace c from rfl]
      simpa using hc

theorem dropWhile_headSpace_fix {u : Str} (h : headSpace u = false) :
    u.dropWhile isSpace = u := by
  cases u with
  | nil => rfl
  | cons c r =>
    rw [List.dropWhile_cons, if_neg]
    rw [show headSpace (c :: r) = isSpace c from rfl] at h
    simp [h]

theorem pyStrip_fix {t : Str} (h1 : headSpace t = false)
    (h2 : headSpace t.reverse = false) : pyStrip t = t := by
  unfold pyStrip
  rw [dropWhile_headSpace_fix h1, dropWhile_headSpace_fix h2, List.reverse_reverse]

theorem chain'_dropWhile {R : Char → Char → Prop} {l : List Char} (p : Char → Bool)
    (h : List.Chain' R l) : List.Chain' R (l.dropWhile p) := by
  induction l with
  | nil => simp
  | cons a l ih =>
    rw [List.dropWhile_cons]
    by_cases hp : p a = true
    · rw [if_pos hp]
      exact ih h.tail
    · rw [if_neg hp]
      exact h

theorem subNl_fix {t : Str} (hnl : '\n' ∉ t) : subNl t = t := by
  induction t with
  | nil => simp [subNl]
  | cons c rest ih =>
    have hc : ¬ c = '\n' := fun h => hnl (h ▸ List.mem_cons_self c rest)
    simp only [subNl]
    rw [if_neg hc]
    rw [ih (fun h => hnl (List.mem_cons_of_mem c h))]

theorem subBullet_false_fix (b : Char) {t : Str} (hnl : '\n' ∉ t) :
    subBullet b false t = t := by
  induction t with
  | nil => simp [subBullet]
  | cons c rest ih =>
    have hc : ¬ c = '\n' := fun h => hnl (h ▸ List.mem_cons_self c rest)
    simp only [subBullet]
    rw [if_neg (by simp)]
    rw [decide_eq_false hc]
    rw [ih (fun h => hnl (List.mem_cons_of_mem c h))]

theorem subBullet_true_fix (b : Char) {t : Str} (hnl : '\n' ∉ t)
    (hb : ∀ c rest, t = c :: rest → ¬ (c = b ∧ headSpace rest = true)) :
    subBullet b true t = t := by
  cases t with
  | nil => simp [subBullet]
  | cons c rest =>
    have hc : ¬ c = '\n' := fun h => hnl (h ▸ List.mem_cons_self c rest)
    simp only [subBullet]
    rw [if_neg (by
      rintro ⟨-, h1, h2⟩
      exact hb c rest rfl ⟨h1, h2⟩)]
    rw [decide_eq_false hc]
    rw [subBullet_false_fix b (fun h => hnl (List.mem_cons_of_mem c h))]

theorem bulletStart_elim {t : Str} (h : bulletStart t = false) {b : Char}
    (hb : b = 'e' ∨ b = 'o' ∨ b = '-') :
    ∀ c rest, t = c :: rest → ¬ (c = b ∧ headSpace rest = true) := by
  rintro c rest hcr ⟨hcb, hhs⟩
  subst hcr
  subst hcb
  cases rest with
  | nil => exact absurd hhs (by simp [headSpace])
  | cons d r2 =>
    rw [show headSpace (d :: r2) = isSpace d from rfl] at hhs
    rw [show bulletStart (c :: d :: r2) =
      ((c = 'e' || c = 'o' || c = '-') && isSpace d) from rfl] at h
    have hbe : (c = 'e' || c = 'o' || c = '-') = true := by
      rcases hb with h1 | h1 | h1 <;> subst h1 <;> decide
    rw [hbe, Bool.true_and] at h
    rw [h] at hhs
    cases hhs

theorem subWs_space_eq : ∀ (s : Str), ∀ x ∈ subWs s, isSpace x = true → x = ' ' := by
  intro s
  induction s using subWs.induct with
  | case1 =>
    intro x hx
    simp [subWs] at hx
  | case2 c rest hc ih =>
    intro x hx hsx
    simp only [subWs] at hx
    rw [if_pos hc] at hx
    rcases List.mem_cons.mp hx with h1 | h1
    · exact h1
    · exact ih x h1 hsx
  | case3 c rest hc ih =>
    intro x hx hsx
    simp only [subWs] at hx
    rw [if_neg hc] at hx
    rcases List.mem_cons.mp hx with h1 | h1
    · rw [h1] at hsx
      exact absurd hsx (by simpa using hc)
    · exact ih x h1 hsx

theorem subWs_chain : ∀ (s : Str),
    List.Chain' (fun a b => isSpace a = false ∨ isSpace b = false) (subWs s) := by
  intro s
  induction s using subWs.induct with
  | case1 => simp [subWs]
  | case2 c rest hc ih =>
    simp only [subWs]
    rw [if_pos hc]
    rw [List.chain'_cons']
    refine ⟨?_, ih⟩
    intro b hb
    have hd := headSpace_dropWhile rest
    cases hr : rest.dropWhile isSpace with
    | nil =>
      rw [hr] at hb
      simp [subWs] at hb
    | cons d r2 =>
      rw [hr] at hb hd
      rw [show headSpace (d :: r2) = isSpace d from rfl] at hd
      simp only [subWs] at hb
      rw [if_neg (by simp [hd])] at hb
      simp only [List.head?_cons, Option.mem_def, Option.some_inj] at hb
      rw [hb] at hd
      exact Or.inr hd
  | case3 c rest hc ih =>
    simp only [subWs]
    rw [if_neg hc]
    rw [List.chain'_cons']
    exact ⟨fun b _ => Or.inl (by simpa using hc), ih⟩

theorem subWs_fix : ∀ (t : Str), (∀ x ∈ t, isSpace x = true → x = ' ') →
    List.Chain' (fun a b => isSpace a = false ∨ isSpace b = false) t →
    subWs t = t := by
  intro t
  induction t with
  | nil => intro _ _; simp [subWs]
  | cons c rest ih =>
    intro hsp hch
    simp only [subWs]
    by_cases hc : isSpace c = true
    · rw [if_pos hc]
      have hc' : c = ' ' := hsp c (List.mem_cons_self c rest) hc
      have hrest : rest.dropWhile isSpace = rest := by
        cases rest with
        | nil => rfl
        | cons d r2 =>
          have hrel := (List.chain'_cons'.mp hch).1 d (by simp)
          rcases hrel with h1 | h1
          · rw [h1] at hc
            cases hc
          · rw [List.dropWhile_cons, if_neg (by simp [h1])]
      rw [hrest]
      rw [ih (fun x hx => hsp x (List.mem_cons_of_mem c hx)) hch.tail]
      rw [hc']
    · rw [if_neg hc]
      rw [ih (fun x hx => hsp x (List.mem_cons_of_mem c hx)) hch.tail]

theorem pyStrip_prefix_dropWhile (u : Str) : pyStrip u <+: u.dropWhile isSpace := by
  unfold pyStrip
  have hsfx := List.dropWhile_suffix (l := (u.dropWhile isSpace).reverse) isSpace
  have hpre := List.reverse_prefix.mpr hsfx
  rwa [List.reverse_reverse] at hpre

theorem headSpace_pyStrip (u : Str) : headSpace (pyStrip u) = false := by
  cases hp : pyStrip u with
  | nil => rfl
  | cons d t =>
    have hpre := pyStrip_prefix_dropWhile u
    rw [hp] at hpre
    rcases hpre with ⟨r, hr⟩
    have hhd := headSpace_dropWhile u
    rw [← hr] at hhd
    rw [show headSpace ((d :: t) ++ r) = isSpace d from rfl] at hhd
    rw [show headSpace (d :: t) = isSpace d from rfl]
    exact hhd

theorem headSpace_pyStrip_reverse (u : Str) : headSpace (pyStrip u).reverse = false := by
  unfold pyStrip
  rw [List.reverse_reverse]
  exact headSpace_dropWhile _

theorem chain'_pyStrip {l : List Char}
    (h : List.Chain' (fun a b => isSpace a = false ∨ isSpace b = false) l) :
    List.Chain' (fun a b => isSpace a = false ∨ isSpace b = false) (pyStrip l) := by
  unfold pyStrip
  have h1 := chain'_dropWhile isSpace h
  have h2 : List.Chain' (fun a b => isSpace a = false ∨ isSpace b = false)
      (l.dropWhile isSpace).reverse :=
    List.chain'_reverse.mpr (h1.imp fun a b hab => hab.symm)
  have h3 := chain'_dropWhile isSpace h2
  exact List.chain'_reverse.mpr (h3.imp fun a b hab => hab.symm)

/-! ### Claim C6 -/

/-- Claim C6, counterexample: cleaning is not idempotent.  The input
`" - a"` cleans to `"- a"` (the leading space hides the dash from the
bullet substitution, and the final strip then exposes it), but a second
cleaning pass rewrites the now-leading `"- "` to a bullet, giving
`"• a"`. -/
theorem clean_text_not_idempotent :
    clean_text (lit " - a") = lit "- a" ∧
    clean_text (clean_text (lit " - a")) = lit "• a" ∧
    clean_text (clean_text (lit " - a")) ≠ clean_text (lit " - a") := by
  have h1 : clean_text (lit " - a") = lit "- a" := by
    simp [clean_text, subBullet, subNl, subWs, pyStrip, isSpace, lit, nlEmit, headSpace]
  have h2 : clean_text (lit "- a") = lit "• a" := by
    simp [clean_text, subBullet, subNl, subWs, pyStrip, isSpace, lit, nlEmit, headSpace]
  refine ⟨h1, ?_, ?_⟩
  · rw [h1, h2]
  · rw [h1, h2]
    decide

/-- Claim C6 (amended): the cleaning normalization is idempotent on
every input whose cleaned text does not begin with one of the bullet
mis-recognition patterns `e `, `o ` or `- ` (a leading pattern can be
exposed by the final strip; a second pass then rewrites it to a bullet,
as in the counterexample).  Under that proviso, a second application
changes nothing. -/
theorem clean_text_conditional_idempotent (s : Str)
    (h : bulletStart (clean_text s) = false) :
    clean_text (clean_text s) = clean_text s := by
  have hsub : ∀ x ∈ clean_text s,
      x ∈ subWs (subNl (subBullet '-' true (subBullet 'o' true (subBullet 'e' true s)))) :=
    fun x hx => pyStrip_subset hx
  have hsp : ∀ x ∈ clean_text s, isSpace x = true → x = ' ' :=
    fun x hx hsx => subWs_space_eq _ x (hsub x hx) hsx
  have hnl : '\n' ∉ clean_text s := by
    intro hmem
    exact absurd (hsp '\n' hmem (by decide)) (by decide)
  have hchain : List.Chain' (fun a b => isSpace a = false ∨ isSpace b = false)
      (clean_text s) :=
    chain'_pyStrip (subWs_chain
      (subNl (subBullet '-' true (subBullet 'o' true (subBullet 'e' true s)))))
  show pyStrip (subWs (subNl (subBullet '-' true (subBullet 'o' true
    (subBullet 'e' true (clean_text s)))))) = clean_text s
  rw [subBullet_true_fix 'e' hnl (bulletStart_elim h (Or.inl rfl))]
  rw [subBullet_true_fix 'o' hnl (bulletStart_elim h (Or.inr (Or.inl rfl)))]
  rw [subBullet_true_fix '-' hnl (bulletStart_elim h (Or.inr (Or.inr rfl)))]
  rw [subNl_fix hnl]
  rw [subWs_fix (clean_text s) hsp hchain]
  exact pyStrip_fix
    (headSpace_pyStrip (subWs (subNl (subBullet '-' true
      (subBullet 'o' true (subBullet 'e' true s))))))
    (headSpace_pyStrip_reverse (subWs (subNl (subBullet '-' true
      (subBullet 'o' true (subBullet 'e' true s))))))

/-- Witness for the amended claim C6 at a concrete input whose cleaned
text does not begin with a bullet pattern. -/
theorem clean_text_conditional_idempotent_w :
    bulletStart (clean_text (lit "Resume of  e x")) = false ∧
    clean_text (clean_text (lit "Resume of  e x")) = clean_text (lit "Resume of  e x") :=
  ⟨by simp [clean_text, subBullet, subNl, subWs, pyStrip, isSpace, lit, nlEmit,
      headSpace, bulletStart],
    clean_text_conditional_idempotent (lit "Resume of  e x")
      (by simp [clean_text, subBullet, subNl, subWs, pyStrip, isSpace, lit, nlEmit,
        headSpace, bulletStart])⟩
